import Mathlib

/-!
Verification of the `cvr` RGB image library (`src/lib.rs`).

The embedding models:
- `RgbImg` (three channel buffers `r`, `g`, `b` plus `height`/`width`),
  with channel bytes as `Nat` values (the source uses `u8`; every core
  operation only copies bytes, never computes on them, so no modular
  arithmetic is needed);
- the packed-buffer codec `RgbImg.from_packed_buf` / `RgbImg.to_packed_buf`;
- the pixel zip iterator `RgbIter` and the generic greyscale adaptor,
  as explicit state-passing iterators;
- the greyscale per-pixel computation, with IEEE-754 binary64 arithmetic
  embedded exactly as dyadic rationals rounded to 53 significant bits
  (round to nearest, ties to even).
-/

namespace Cvr

/-- `RgbImg` from `src/lib.rs`: channel-major 8-bit RGB image data.
The three `MiniVec<u8>` channel buffers are modelled as lists of byte
values, `height`/`width` (`usize`) as naturals. -/
structure RgbImg where
  r : List Nat
  g : List Nat
  b : List Nat
  height : Nat
  width : Nat
deriving DecidableEq

namespace RgbImg

/-- `RgbImg::new`: empty image, all channels empty, `height = width = 0`. -/
def new : RgbImg :=
  { r := [], g := [], b := [], height := 0, width := 0 }

/-- `buf.chunks_exact(3)`: the buffer split into complete groups of 3 bytes,
any trailing 1 or 2 bytes discarded (as `chunks_exact` does). -/
def chunks3 : List Nat → List (Nat × Nat × Nat)
  | a :: b :: c :: rest => (a, b, c) :: chunks3 rest
  | _ => []

/-- Models the `set_len(total)` step of `from_packed_buf`: the channel
buffer afterwards has length exactly `total`.  Positions beyond the bytes
actually written by the chunk loop hold uninitialized memory in the
source (undefined behavior when read); the model fixes them to `0`.
When more chunks were written than `total` (impossible under the
documented precondition), the source indexes past the spare capacity;
the model truncates. -/
def setLen (total : Nat) (written : List Nat) : List Nat :=
  (written ++ List.replicate (total - written.length) 0).take total

/-- `RgbImg::from_packed_buf(buf, height, width)`: iterates
`buf.chunks_exact(3)`, writing byte 0 of each chunk into `r`, byte 1
into `g`, byte 2 into `b`, then sets each channel's length to
`height * width`.  No length validation is performed by the source. -/
def from_packed_buf (buf : List Nat) (height width : Nat) : RgbImg :=
  let total := height * width
  let chunks := chunks3 buf
  { r := setLen total (chunks.map fun p => p.1)
    g := setLen total (chunks.map fun p => p.2.1)
    b := setLen total (chunks.map fun p => p.2.2)
    height := height
    width := width }

/-- `RgbImg::total`: number of pixels, `height() * width()`. -/
def total (img : RgbImg) : Nat :=
  img.height * img.width

/-- `RgbImg::to_packed_buf`: a fresh buffer of length `3 * total()`; the
loop writes, for each pixel index `idx`, `r[idx]` at offset `3*idx`,
`g[idx]` at `3*idx + 1` and `b[idx]` at `3*idx + 2`.  The source's slice
indexing panics when a channel is shorter than `total()` (unreachable
for constructed images); the model uses `getD _ 0` there. -/
def to_packed_buf (img : RgbImg) : List Nat :=
  (List.range img.total).flatMap fun idx =>
    [img.r.getD idx 0, img.g.getD idx 0, img.b.getD idx 0]

end RgbImg

/-- `RgbIter` from `src/lib.rs`: three lockstep cursors, one per channel.
Each `std::slice::Iter<u8>` is modelled by the list of its remaining
elements. -/
structure RgbIter where
  r_ : List Nat
  g_ : List Nat
  b_ : List Nat
deriving DecidableEq

namespace RgbIter

/-- `RgbIter::next`: advances all three cursors; yields a triple when
all three produced an element, `none` otherwise. -/
def next (it : RgbIter) : Option ((Nat × Nat × Nat) × RgbIter) :=
  let it' : RgbIter := ⟨it.r_.tail, it.g_.tail, it.b_.tail⟩
  match it.r_.head?, it.g_.head?, it.b_.head? with
  | some r, some g, some b => some ((r, g, b), it')
  | _, _, _ => none

/-- `RgbIter::size_hint`: forwards the red cursor's hint; a slice
iterator's hint is exact, `(len, Some(len))`. -/
def size_hint (it : RgbIter) : Nat × Option Nat :=
  (it.r_.length, some it.r_.length)

end RgbIter

/-- `RgbImg::iter`: a fresh `RgbIter` whose cursors cover the three
whole channel buffers. -/
def RgbImg.iter (img : RgbImg) : RgbIter :=
  { r_ := img.r, g_ := img.g, b_ := img.b }

/-- Runs a state-passing iterator for at most `fuel` steps, collecting
the yielded elements in order; stops early when the iterator is
exhausted. -/
def iterate {σ α : Type} (next : σ → Option (α × σ)) : Nat → σ → List α
  | 0, _ => []
  | fuel + 1, s =>
    match next s with
    | none => []
    | some (a, s') => a :: iterate next fuel s'

/-- Advances a state-passing iterator `n` times (stopping at
exhaustion), returning the final state. -/
def advance {σ α : Type} (next : σ → Option (α × σ)) : Nat → σ → σ
  | 0, s => s
  | n + 1, s =>
    match next s with
    | none => s
    | some (_, s') => advance next n s'

/-! ### IEEE-754 binary64 arithmetic, embedded exactly

The greyscale computation in the source is performed in Rust `f64`.
All values arising in it are nonnegative binary64 values, i.e. dyadic
rationals, and every source operation is "compute exactly, then round
the result to 53 significant bits, round to nearest with ties to even".
The model below implements exactly that.  A nonnegative rational is
represented as a numerator/denominator pair of naturals (denominator
positive, no normalization required), so that every step is plain `Nat`
arithmetic.  Rounding is exact for magnitudes in `[2^(-400), 2^400]`;
every value in the greyscale computation lies well inside this range
(the smallest nonzero magnitude is `1/255` times a coefficient), so
overflow to infinity and underflow to subnormals cannot occur. -/

/-- Rounds the rational `n / d` (with `d > 0`) to the nearest integer,
ties to even. -/
def roundHalfEven (n d : Nat) : Nat :=
  let fl := n / d
  let twiceRem := 2 * (n % d)
  if twiceRem < d then fl
  else if d < twiceRem then fl + 1
  else if fl % 2 = 0 then fl else fl + 1

/-- For `n / d ≥ 2^(-400)`, finds the shifted binary exponent
`e2 = e + 400` such that `2^e ≤ n/d < 2^(e+1)`, by upward scan.
`n400` is `n * 2^400`, `p` is `2^e2`, `fuel` bounds the scan. -/
def findExp (n400 d : Nat) : Nat → Nat → Nat → Nat
  | 0, e2, _ => e2
  | fuel + 1, e2, p =>
    if n400 < 2 * p * d then e2 else findExp n400 d fuel (e2 + 1) (2 * p)

/-- Rounds the nonnegative rational `n / d` (with `d > 0`) to the
nearest binary64 value (round to nearest, ties to even), returned as a
numerator/denominator pair.  Writing `e` for the exponent with
`2^e ≤ n/d < 2^(e+1)`, the significand `(n/d) * 2^(52-e) ∈ [2^52, 2^53)`
is rounded half-to-even to an integer and scaled back. -/
def rnd (n d : Nat) : Nat × Nat :=
  if n = 0 then (0, 1)
  else
    let e2 := findExp (n * 2 ^ 400) d 801 0 1
    if e2 ≤ 452 then
      (roundHalfEven (n * 2 ^ (452 - e2)) d, 2 ^ (452 - e2))
    else
      (roundHalfEven n (d * 2 ^ (e2 - 452)) * 2 ^ (e2 - 452), 1)

/-- binary64 multiplication: exact product, then rounded. -/
def fmul (a b : Nat × Nat) : Nat × Nat := rnd (a.1 * b.1) (a.2 * b.2)

/-- binary64 addition: exact sum, then rounded. -/
def fadd (a b : Nat × Nat) : Nat × Nat :=
  rnd (a.1 * b.2 + b.1 * a.2) (a.2 * b.2)

/-- binary64 division: exact quotient, then rounded. -/
def fdiv (a b : Nat × Nat) : Nat × Nat := rnd (a.1 * b.2) (a.2 * b.1)

/-- The `f64` literal `0.21263901`: the binary64 value nearest the
decimal. -/
def coefR : Nat × Nat := rnd 21263901 100000000

/-- The `f64` literal `0.71516868`. -/
def coefG : Nat × Nat := rnd 71516868 100000000

/-- The `f64` literal `0.07219232`. -/
def coefB : Nat × Nat := rnd 7219232 100000000

/-- The closure body of `GreyscaleIter::next`: normalizes each channel
by `255.0`, takes the weighted sum
`0.21263901*r + 0.71516868*g + 0.07219232*b` (left-associated, each
`f64` operation individually rounded), returns `255` when the sum is
`>= 1.0`, otherwise `(255.0 * grey) as u8` — a saturating cast that
truncates toward zero.  `(r as f64)` is exact since `r ≤ 255 < 2^53`;
the literals `255.0` and `1.0` are exactly representable.  The final
`grey.1 / grey.2` is `Nat` division, i.e. truncation of the nonnegative
product, and `min _ 255` is the cast's saturation (`grey < 1.0` already
forces the product below `255.0`, so saturation never fires). -/
def greyscalePixel (p : Nat × Nat × Nat) : Nat :=
  let r := fdiv (p.1, 1) (255, 1)
  let g := fdiv (p.2.1, 1) (255, 1)
  let b := fdiv (p.2.2, 1) (255, 1)
  let grey := fadd (fadd (fmul coefR r) (fmul coefG g)) (fmul coefB b)
  if grey.2 ≤ grey.1 then 255
  else
    let scaled := fmul (255, 1) grey
    min (scaled.1 / scaled.2) 255

/-! ### The generic greyscale adaptor

`GreyscaleIter<Iter>` is generic over any iterator producing
`(u8, u8, u8)`.  An iterator is modelled by its state type `σ` together
with its `next` and `size_hint` functions. -/

/-- A Rust iterator over items `α` with state type `σ`: its `next`
function (yielding an item and the successor state, or `none` when
exhausted) and its `size_hint`. -/
structure IterSpec (σ : Type) (α : Type) where
  next : σ → Option (α × σ)
  size_hint : σ → Nat × Option Nat

/-- The `RgbIter` iterator packaged as an `IterSpec`. -/
def rgbIterSpec : IterSpec RgbIter (Nat × Nat × Nat) :=
  { next := RgbIter.next, size_hint := RgbIter.size_hint }

namespace GreyscaleIter

/-- `GreyscaleIter::next` over a generic source `it`: forwards the
source's `next` and maps the yielded triple through the greyscale
closure.  The adaptor's state is the wrapped source's state. -/
def next {σ : Type} (it : IterSpec σ (Nat × Nat × Nat)) (s : σ) :
    Option (Nat × σ) :=
  (it.next s).map fun p => (greyscalePixel p.1, p.2)

/-- `GreyscaleIter::size_hint`: forwards the wrapped source's
`size_hint` unchanged. -/
def size_hint {σ : Type} (it : IterSpec σ (Nat × Nat × Nat)) (s : σ) :
    Nat × Option Nat :=
  it.size_hint s

end GreyscaleIter

/-- `Greyscale::greyscale`: wraps a triple-producing iterator into the
greyscale adaptor. -/
def greyscale {σ : Type} (it : IterSpec σ (Nat × Nat × Nat)) :
    IterSpec σ Nat :=
  { next := GreyscaleIter.next it, size_hint := GreyscaleIter.size_hint it }

/-! ### Auxiliary specification functions -/

/-- Zips three channel lists into the triple sequence produced by
lockstep traversal, stopping at the shortest list. -/
def zip3 : List Nat → List Nat → List Nat → List (Nat × Nat × Nat)
  | x :: xs, y :: ys, z :: zs => (x, y, z) :: zip3 xs ys zs
  | _, _, _ => []

/-- Interleaves three channel lists into packed `[R,G,B,R,G,B,...]`
order, stopping at the shortest list. -/
def flat3 : List Nat → List Nat → List Nat → List Nat
  | x :: xs, y :: ys, z :: zs => x :: y :: z :: flat3 xs ys zs
  | _, _, _ => []

/-- The documented `RgbImg` invariant (spec §3): all three channel
buffers have length `height * width`. -/
def RgbInvariant (img : RgbImg) : Prop :=
  img.r.length = img.total ∧ img.g.length = img.total ∧
    img.b.length = img.total

instance (img : RgbImg) : Decidable (RgbInvariant img) := by
  unfold RgbInvariant; infer_instance

/-! ### Helper lemmas -/

lemma chunks3_length (n : Nat) :
    ∀ l : List Nat, l.length = 3 * n → (RgbImg.chunks3 l).length = n := by
  induction n with
  | zero =>
    intro l h
    match l with
    | [] => simp [RgbImg.chunks3]
    | _ :: _ => simp at h
  | succ n ih =>
    intro l h
    match l with
    | [] => simp at h
    | [_] => simp at h; omega
    | [_, _] => simp at h; omega
    | a :: b :: c :: rest =>
      have hrest : rest.length = 3 * n := by simp at h; omega
      simp [RgbImg.chunks3, ih rest hrest]

lemma setLen_of_length {w : List Nat} {n : Nat} (h : w.length = n) :
    RgbImg.setLen n w = w := by
  subst h
  simp [RgbImg.setLen]

lemma rangeFlat_flat3 (n : Nat) :
    ∀ r g b : List Nat, r.length = n → g.length = n → b.length = n →
      ((List.range n).flatMap fun idx =>
        [r.getD idx 0, g.getD idx 0, b.getD idx 0]) = flat3 r g b := by
  induction n with
  | zero =>
    intro r g b hr hg hb
    rw [List.length_eq_zero] at hr hg hb
    subst hr; subst hg; subst hb
    simp [flat3]
  | succ n ih =>
    intro r g b hr hg hb
    match r, g, b with
    | x :: xs, y :: ys, z :: zs =>
      simp only [List.length_cons, Nat.succ.injEq] at hr hg hb
      rw [List.range_succ_eq_map, List.flatMap_cons, List.flatMap_map]
      simp only [List.getD_cons_zero, List.getD_cons_succ, flat3]
      rw [ih xs ys zs hr hg hb]
      simp

lemma flat3_chunks3 (n : Nat) :
    ∀ l : List Nat, l.length = 3 * n →
      flat3 ((RgbImg.chunks3 l).map fun p => p.1)
        ((RgbImg.chunks3 l).map fun p => p.2.1)
        ((RgbImg.chunks3 l).map fun p => p.2.2) = l := by
  induction n with
  | zero =>
    intro l h
    match l with
    | [] => simp [RgbImg.chunks3, flat3]
    | _ :: _ => simp at h
  | succ n ih =>
    intro l h
    match l with
    | [] => simp at h
    | [_] => simp at h; omega
    | [_, _] => simp at h; omega
    | a :: b :: c :: rest =>
      have hrest : rest.length = 3 * n := by simp at h; omega
      simp only [RgbImg.chunks3, List.map_cons, flat3]
      rw [ih rest hrest]

lemma chunks3_flat3 :
    ∀ r g b : List Nat, RgbImg.chunks3 (flat3 r g b) = zip3 r g b := by
  intro r
  induction r with
  | nil => intro g b; cases g <;> cases b <;> simp [flat3, RgbImg.chunks3, zip3]
  | cons x xs ih =>
    intro g b
    cases g <;> cases b <;>
      simp [flat3, RgbImg.chunks3, zip3, ih]

lemma zip3_maps :
    ∀ r g b : List Nat, r.length = g.length → g.length = b.length →
      ((zip3 r g b).map fun p => p.1) = r ∧
        ((zip3 r g b).map fun p => p.2.1) = g ∧
        ((zip3 r g b).map fun p => p.2.2) = b := by
  intro r
  induction r with
  | nil =>
    intro g b hrg hgb
    match g, b with
    | [], [] => simp [zip3]
    | _ :: _, _ => simp at hrg
    | [], _ :: _ => simp at hgb
  | cons x xs ih =>
    intro g b hrg hgb
    match g, b with
    | [], _ => simp at hrg
    | _ :: _, [] => simp at hgb
    | y :: ys, z :: zs =>
      simp only [List.length_cons, Nat.succ.injEq] at hrg hgb
      obtain ⟨h1, h2, h3⟩ := ih ys zs hrg hgb
      simp [zip3, h1, h2, h3]

lemma zip3_length :
    ∀ r g b : List Nat, r.length = g.length → g.length = b.length →
      (zip3 r g b).length = r.length := by
  intro r
  induction r with
  | nil => intro g b _ _; cases g <;> cases b <;> simp [zip3]
  | cons x xs ih =>
    intro g b hrg hgb
    match g, b with
    | [], _ => simp at hrg
    | _ :: _, [] => simp at hgb
    | y :: ys, z :: zs =>
      simp only [List.length_cons, Nat.succ.injEq] at hrg hgb
      simp [zip3, ih ys zs hrg hgb]

lemma zip3_getD :
    ∀ (i : Nat) (r g b : List Nat), i < r.length → r.length = g.length →
      g.length = b.length →
      (zip3 r g b).getD i (0, 0, 0) =
        (r.getD i 0, g.getD i 0, b.getD i 0) := by
  intro i
  induction i with
  | zero =>
    intro r g b hi hrg hgb
    match r, g, b with
    | [], _, _ => simp at hi
    | _ :: _, [], _ => simp at hrg
    | _ :: _, _ :: _, [] => simp at hgb
    | x :: xs, y :: ys, z :: zs => simp [zip3]
  | succ i ih =>
    intro r g b hi hrg hgb
    match r, g, b with
    | [], _, _ => simp at hi
    | _ :: _, [], _ => simp at hrg
    | _ :: _, _ :: _, [] => simp at hgb
    | x :: xs, y :: ys, z :: zs =>
      simp only [List.length_cons, Nat.succ.injEq] at hrg hgb
      have hi' : i < xs.length := by simp at hi; omega
      show ((x, y, z) :: zip3 xs ys zs).getD (i + 1) (0, 0, 0) = _
      rw [List.getD_cons_succ, List.getD_cons_succ, List.getD_cons_succ,
        List.getD_cons_succ]
      exact ih xs ys zs hi' hrg hgb

lemma iterate_rgb :
    ∀ (fuel : Nat) (r g b : List Nat), r.length ≤ fuel →
      r.length = g.length → g.length = b.length →
      iterate RgbIter.next fuel ⟨r, g, b⟩ = zip3 r g b := by
  intro fuel
  induction fuel with
  | zero =>
    intro r g b hf hrg hgb
    have : r = [] := by
      cases r with
      | nil => rfl
      | cons _ _ => simp at hf
    subst this
    cases g with
    | nil => cases b <;> simp [iterate, zip3]
    | cons _ _ => simp at hrg
  | succ fuel ih =>
    intro r g b hf hrg hgb
    match r, g, b with
    | [], g, b =>
      have hg : g = [] := by
        rw [← List.length_eq_zero]; simpa using hrg.symm
      have hb : b = [] := by
        rw [← List.length_eq_zero]; rw [hg] at hgb; simpa using hgb.symm
      subst hg; subst hb
      simp [iterate, RgbIter.next, zip3]
    | x :: xs, [], _ => simp at hrg
    | x :: xs, _ :: _, [] => simp at hgb
    | x :: xs, y :: ys, z :: zs =>
      simp only [List.length_cons, Nat.succ.injEq] at hrg hgb
      have hf' : xs.length ≤ fuel := by simp at hf; omega
      simp only [iterate, RgbIter.next, List.head?_cons, List.tail_cons, zip3]
      exact congrArg _ (ih xs ys zs hf' hrg hgb)

lemma advance_rgb :
    ∀ (n : Nat) (r g b : List Nat), r.length = n → g.length = n →
      b.length = n →
      advance RgbIter.next n ⟨r, g, b⟩ = ⟨[], [], []⟩ := by
  intro n
  induction n with
  | zero =>
    intro r g b hr hg hb
    rw [List.length_eq_zero] at hr hg hb
    subst hr; subst hg; subst hb
    simp [advance]
  | succ n ih =>
    intro r g b hr hg hb
    match r, g, b with
    | [], _, _ => simp at hr
    | _ :: _, [], _ => simp at hg
    | _ :: _, _ :: _, [] => simp at hb
    | x :: xs, y :: ys, z :: zs =>
      simp only [List.length_cons, Nat.succ.injEq] at hr hg hb
      simp only [advance, RgbIter.next, List.head?_cons, List.tail_cons]
      exact ih xs ys zs hr hg hb

lemma flat3_length :
    ∀ r g b : List Nat, r.length = g.length → g.length = b.length →
      (flat3 r g b).length = 3 * r.length := by
  intro r
  induction r with
  | nil => intro g b _ _; cases g <;> cases b <;> simp [flat3]
  | cons x xs ih =>
    intro g b hrg hgb
    match g, b with
    | [], _ => simp at hrg
    | _ :: _, [] => simp at hgb
    | y :: ys, z :: zs =>
      simp only [List.length_cons, Nat.succ.injEq] at hrg hgb
      simp [flat3, ih ys zs hrg hgb]
      omega

lemma flat3_getD :
    ∀ (i : Nat) (r g b : List Nat), i < r.length → r.length = g.length →
      g.length = b.length →
      (flat3 r g b).getD (3 * i) 0 = r.getD i 0 ∧
        (flat3 r g b).getD (3 * i + 1) 0 = g.getD i 0 ∧
        (flat3 r g b).getD (3 * i + 2) 0 = b.getD i 0 := by
  intro i
  induction i with
  | zero =>
    intro r g b hi hrg hgb
    match r, g, b with
    | [], _, _ => simp at hi
    | _ :: _, [], _ => simp at hrg
    | _ :: _, _ :: _, [] => simp at hgb
    | x :: xs, y :: ys, z :: zs => simp [flat3]
  | succ i ih =>
    intro r g b hi hrg hgb
    match r, g, b with
    | [], _, _ => simp at hi
    | _ :: _, [], _ => simp at hrg
    | _ :: _, _ :: _, [] => simp at hgb
    | x :: xs, y :: ys, z :: zs =>
      simp only [List.length_cons, Nat.succ.injEq] at hrg hgb
      have hi' : i < xs.length := by simp at hi; omega
      have h3 : 3 * (i + 1) = 3 * i + 1 + 1 + 1 := by omega
      obtain ⟨e1, e2, e3⟩ := ih xs ys zs hi' hrg hgb
      refine ⟨?_, ?_, ?_⟩
      · rw [h3]
        simpa [flat3, List.getD_cons_succ] using e1
      · rw [show 3 * (i + 1) + 1 = 3 * i + 1 + 1 + 1 + 1 by omega]
        simpa [flat3, List.getD_cons_succ] using e2
      · rw [show 3 * (i + 1) + 2 = 3 * i + 2 + 1 + 1 + 1 by omega]
        simpa [flat3, List.getD_cons_succ] using e3

lemma to_packed_buf_eq_flat3 (img : RgbImg) (hinv : RgbInvariant img) :
    img.to_packed_buf = flat3 img.r img.g img.b := by
  obtain ⟨hr, hg, hb⟩ := hinv
  exact rangeFlat_flat3 img.total img.r img.g img.b hr hg hb

lemma setLen_length (n : Nat) (w : List Nat) :
    (RgbImg.setLen n w).length = n := by
  simp [RgbImg.setLen]
  omega

lemma from_packed_buf_channels (buf : List Nat) (h w : Nat)
    (hlen : buf.length = 3 * (h * w)) :
    (RgbImg.from_packed_buf buf h w).r =
        (RgbImg.chunks3 buf).map (fun p => p.1) ∧
      (RgbImg.from_packed_buf buf h w).g =
        (RgbImg.chunks3 buf).map (fun p => p.2.1) ∧
      (RgbImg.from_packed_buf buf h w).b =
        (RgbImg.chunks3 buf).map (fun p => p.2.2) := by
  have hc : (RgbImg.chunks3 buf).length = h * w := chunks3_length (h * w) buf hlen
  refine ⟨?_, ?_, ?_⟩ <;>
    · show RgbImg.setLen (h * w) _ = _
      exact setLen_of_length (by simpa using hc)

/-! ### Claim theorems -/

/-- C2: for every packed buffer `b` and dimensions `h`, `w` with
`len(b) = 3*h*w`, encoding the decoded image reproduces the input
exactly: `from_packed_buf(b, h, w).to_packed_buf() = b`. -/
theorem to_packed_of_from_packed (buf : List Nat) (h w : Nat)
    (hlen : buf.length = 3 * (h * w)) :
    (RgbImg.from_packed_buf buf h w).to_packed_buf = buf := by
  have hc : (RgbImg.chunks3 buf).length = h * w := chunks3_length (h * w) buf hlen
  obtain ⟨hr, hg, hb⟩ := from_packed_buf_channels buf h w hlen
  have htot : (RgbImg.from_packed_buf buf h w).total = h * w := rfl
  show (List.range _).flatMap _ = buf
  rw [htot, hr, hg, hb]
  rw [rangeFlat_flat3 (h * w) _ _ _ (by simpa using hc) (by simpa using hc)
    (by simpa using hc)]
  exact flat3_chunks3 (h * w) buf hlen

/-- C2 witness: the round trip evaluated on the concrete buffer
`[10,20,30,40,50,60]` with `height = 1`, `width = 2`. -/
theorem to_packed_of_from_packed_witness :
    ([10, 20, 30, 40, 50, 60] : List Nat).length = 3 * (1 * 2) ∧
      (RgbImg.from_packed_buf [10, 20, 30, 40, 50, 60] 1 2).to_packed_buf =
        [10, 20, 30, 40, 50, 60] :=
  ⟨by decide, to_packed_of_from_packed [10, 20, 30, 40, 50, 60] 1 2 (by decide)⟩

/-- C3: decoding an image's own encoding reproduces its channel
contents byte-for-byte, for every image satisfying the constructor
invariant. -/
theorem from_packed_of_to_packed (img : RgbImg) (hinv : RgbInvariant img) :
    (RgbImg.from_packed_buf img.to_packed_buf img.height img.width).r =
        img.r ∧
      (RgbImg.from_packed_buf img.to_packed_buf img.height img.width).g =
        img.g ∧
      (RgbImg.from_packed_buf img.to_packed_buf img.height img.width).b =
        img.b := by
  obtain ⟨hr, hg, hb⟩ := hinv
  have hrg : img.r.length = img.g.length := hr.trans hg.symm
  have hgb : img.g.length = img.b.length := hg.trans hb.symm
  have hflat : img.to_packed_buf = flat3 img.r img.g img.b :=
    to_packed_buf_eq_flat3 img ⟨hr, hg, hb⟩
  obtain ⟨m1, m2, m3⟩ := zip3_maps img.r img.g img.b hrg hgb
  refine ⟨?_, ?_, ?_⟩
  · show RgbImg.setLen _ _ = _
    rw [hflat, chunks3_flat3, m1]
    exact setLen_of_length hr
  · show RgbImg.setLen _ _ = _
    rw [hflat, chunks3_flat3, m2]
    exact setLen_of_length hg
  · show RgbImg.setLen _ _ = _
    rw [hflat, chunks3_flat3, m3]
    exact setLen_of_length hb

/-- C3 witness: the channel round trip evaluated on the concrete image
with `red = [10,40]`, `green = [20,50]`, `blue = [30,60]`. -/
theorem from_packed_of_to_packed_witness :
    RgbInvariant
        { r := [10, 40], g := [20, 50], b := [30, 60],
          height := 1, width := 2 } ∧
      ((RgbImg.from_packed_buf
            (RgbImg.to_packed_buf
              { r := [10, 40], g := [20, 50], b := [30, 60],
                height := 1, width := 2 })
            1 2).r = [10, 40] ∧
        (RgbImg.from_packed_buf
            (RgbImg.to_packed_buf
              { r := [10, 40], g := [20, 50], b := [30, 60],
                height := 1, width := 2 })
            1 2).g = [20, 50] ∧
        (RgbImg.from_packed_buf
            (RgbImg.to_packed_buf
              { r := [10, 40], g := [20, 50], b := [30, 60],
                height := 1, width := 2 })
            1 2).b = [30, 60]) :=
  ⟨by decide,
    from_packed_of_to_packed
      { r := [10, 40], g := [20, 50], b := [30, 60],
        height := 1, width := 2 }
      (by decide)⟩

/-- C4: `new()` and `from_packed_buf(b, h, w)` with `len(b) = 3*h*w`
both establish the invariant: all three channels have length
`height * width`, and `total() = height() * width()` equals each
channel's length. -/
theorem constructed_images_satisfy_invariant (buf : List Nat) (h w : Nat)
    (_hlen : buf.length = 3 * (h * w)) :
    (RgbInvariant RgbImg.new ∧
        RgbImg.new.total = RgbImg.new.height * RgbImg.new.width) ∧
      RgbInvariant (RgbImg.from_packed_buf buf h w) ∧
        (RgbImg.from_packed_buf buf h w).total =
          (RgbImg.from_packed_buf buf h w).height *
            (RgbImg.from_packed_buf buf h w).width := by
  refine ⟨⟨⟨rfl, rfl, rfl⟩, rfl⟩, ⟨?_, ?_, ?_⟩, rfl⟩ <;>
    exact setLen_length _ _

/-- C4 witness: the invariants evaluated on `new()` and on the decode
of the concrete buffer `[10,20,30,40,50,60]` with `height = 1`,
`width = 2`. -/
theorem constructed_images_satisfy_invariant_witness :
    ([10, 20, 30, 40, 50, 60] : List Nat).length = 3 * (1 * 2) ∧
      ((RgbInvariant RgbImg.new ∧
          RgbImg.new.total = RgbImg.new.height * RgbImg.new.width) ∧
        RgbInvariant (RgbImg.from_packed_buf [10, 20, 30, 40, 50, 60] 1 2) ∧
          (RgbImg.from_packed_buf [10, 20, 30, 40, 50, 60] 1 2).total =
            (RgbImg.from_packed_buf [10, 20, 30, 40, 50, 60] 1 2).height *
              (RgbImg.from_packed_buf [10, 20, 30, 40, 50, 60] 1 2).width) :=
  ⟨by decide,
    constructed_images_satisfy_invariant [10, 20, 30, 40, 50, 60] 1 2
      (by decide)⟩

/-- C1: `from_packed_buf` performs no length validation and has no
error path at all (its return type is `RgbImg`, not a `Result`): at the
malformed input `buf = [1,2,3]`, `height = 1`, `width = 2`
(`len(buf) = 3 ≠ 3*1*2 = 6`), it still returns an image whose channels
have been forced to length `2` by `set_len` — the second byte of each
channel is uninitialized memory in the source — instead of surfacing an
`InvalidBufferLength` error. -/
theorem from_packed_buf_accepts_malformed_input :
    (RgbImg.from_packed_buf [1, 2, 3] 1 2).height = 1 ∧
      (RgbImg.from_packed_buf [1, 2, 3] 1 2).width = 2 ∧
      (RgbImg.from_packed_buf [1, 2, 3] 1 2).r.length = 2 ∧
      (RgbImg.from_packed_buf [1, 2, 3] 1 2).r.getD 0 0 = 1 := by
  decide

/-- C5: over an image with `total() = n` satisfying the constructor
invariant, the pixel zip iterator yields exactly `n` triples (for any
fuel bound `≥ n`), the `i`-th triple equals `(r[i], g[i], b[i])`, and
after `n` elements the iterator is exhausted. -/
theorem rgb_iter_yields_all_pixels (img : RgbImg) (hinv : RgbInvariant img)
    (fuel : Nat) (hfuel : img.total ≤ fuel) :
    (iterate RgbIter.next fuel img.iter).length = img.total ∧
      (∀ i, i < img.total →
        (iterate RgbIter.next fuel img.iter).getD i (0, 0, 0) =
          (img.r.getD i 0, img.g.getD i 0, img.b.getD i 0)) ∧
      RgbIter.next (advance RgbIter.next img.total img.iter) = none := by
  obtain ⟨hr, hg, hb⟩ := hinv
  have hrg : img.r.length = img.g.length := hr.trans hg.symm
  have hgb : img.g.length = img.b.length := hg.trans hb.symm
  have hit : iterate RgbIter.next fuel img.iter = zip3 img.r img.g img.b :=
    iterate_rgb fuel img.r img.g img.b (by rw [hr]; exact hfuel) hrg hgb
  refine ⟨?_, ?_, ?_⟩
  · rw [hit, zip3_length img.r img.g img.b hrg hgb, hr]
  · intro i hi
    rw [hit]
    exact zip3_getD i img.r img.g img.b (by rw [hr]; exact hi) hrg hgb
  · rw [show img.iter = ⟨img.r, img.g, img.b⟩ from rfl,
      advance_rgb img.total img.r img.g img.b hr hg hb]
    rfl

/-- C5 witness: the zip iterator evaluated on the concrete image with
`red = [10,40]`, `green = [20,50]`, `blue = [30,60]` and fuel `2`. -/
theorem rgb_iter_yields_all_pixels_witness :
    RgbInvariant
        { r := [10, 40], g := [20, 50], b := [30, 60],
          height := 1, width := 2 } ∧
      (RgbImg.mk [10, 40] [20, 50] [30, 60] 1 2).total ≤ 2 ∧
      ((iterate RgbIter.next 2
            (RgbImg.mk [10, 40] [20, 50] [30, 60] 1 2).iter).length =
          (RgbImg.mk [10, 40] [20, 50] [30, 60] 1 2).total ∧
        (∀ i, i < (RgbImg.mk [10, 40] [20, 50] [30, 60] 1 2).total →
          (iterate RgbIter.next 2
              (RgbImg.mk [10, 40] [20, 50] [30, 60] 1 2).iter).getD i
              (0, 0, 0) =
            ((RgbImg.mk [10, 40] [20, 50] [30, 60] 1 2).r.getD i 0,
              (RgbImg.mk [10, 40] [20, 50] [30, 60] 1 2).g.getD i 0,
              (RgbImg.mk [10, 40] [20, 50] [30, 60] 1 2).b.getD i 0)) ∧
        RgbIter.next
            (advance RgbIter.next
              (RgbImg.mk [10, 40] [20, 50] [30, 60] 1 2).total
              (RgbImg.mk [10, 40] [20, 50] [30, 60] 1 2).iter) = none) :=
  ⟨by decide, by decide,
    rgb_iter_yields_all_pixels (RgbImg.mk [10, 40] [20, 50] [30, 60] 1 2)
      (by decide) 2 (by decide)⟩

set_option maxRecDepth 100000 in
set_option exponentiation.threshold 1000 in
/-- C6: the greyscale transform maps `(255,255,255)` to `255`,
`(0,0,0)` to `0` and `(255,0,0)` to `54`, under the exact binary64
semantics of the source (per-channel normalization by `255.0`, the
weighted sum with coefficients `0.21263901`, `0.71516868`, `0.07219232`,
output `255` when the sum is `≥ 1.0`, otherwise truncation of `255.0`
times the sum toward zero). -/
theorem greyscale_boundary_values :
    greyscalePixel (255, 255, 255) = 255 ∧ greyscalePixel (0, 0, 0) = 0 ∧
      greyscalePixel (255, 0, 0) = 54 := by
  decide

/-- C7: `to_packed_buf` returns a buffer of length exactly `3*total()`,
holding `r[i]` at offset `3i`, `g[i]` at `3i+1` and `b[i]` at `3i+2`
for every pixel index `i < total()`, for every image satisfying the
constructor invariant. -/
theorem to_packed_buf_layout (img : RgbImg) (hinv : RgbInvariant img) :
    img.to_packed_buf.length = 3 * img.total ∧
      ∀ i, i < img.total →
        img.to_packed_buf.getD (3 * i) 0 = img.r.getD i 0 ∧
          img.to_packed_buf.getD (3 * i + 1) 0 = img.g.getD i 0 ∧
          img.to_packed_buf.getD (3 * i + 2) 0 = img.b.getD i 0 := by
  obtain ⟨hr, hg, hb⟩ := hinv
  have hrg : img.r.length = img.g.length := hr.trans hg.symm
  have hgb : img.g.length = img.b.length := hg.trans hb.symm
  have hflat : img.to_packed_buf = flat3 img.r img.g img.b :=
    to_packed_buf_eq_flat3 img ⟨hr, hg, hb⟩
  constructor
  · rw [hflat, flat3_length img.r img.g img.b hrg hgb, hr]
  · intro i hi
    rw [hflat]
    exact flat3_getD i img.r img.g img.b (by rw [hr]; exact hi) hrg hgb

/-- C7 witness: the packed layout evaluated on the concrete image with
`red = [10,40]`, `green = [20,50]`, `blue = [30,60]`. -/
theorem to_packed_buf_layout_witness :
    RgbInvariant
        { r := [10, 40], g := [20, 50], b := [30, 60],
          height := 1, width := 2 } ∧
      ((RgbImg.mk [10, 40] [20, 50] [30, 60] 1 2).to_packed_buf.length =
          3 * (RgbImg.mk [10, 40] [20, 50] [30, 60] 1 2).total ∧
        ∀ i, i < (RgbImg.mk [10, 40] [20, 50] [30, 60] 1 2).total →
          (RgbImg.mk [10, 40] [20, 50] [30, 60] 1 2).to_packed_buf.getD
              (3 * i) 0 =
            (RgbImg.mk [10, 40] [20, 50] [30, 60] 1 2).r.getD i 0 ∧
            (RgbImg.mk [10, 40] [20, 50] [30, 60] 1 2).to_packed_buf.getD
                (3 * i + 1) 0 =
              (RgbImg.mk [10, 40] [20, 50] [30, 60] 1 2).g.getD i 0 ∧
            (RgbImg.mk [10, 40] [20, 50] [30, 60] 1 2).to_packed_buf.getD
                (3 * i + 2) 0 =
              (RgbImg.mk [10, 40] [20, 50] [30, 60] 1 2).b.getD i 0) :=
  ⟨by decide,
    to_packed_buf_layout (RgbImg.mk [10, 40] [20, 50] [30, 60] 1 2)
      (by decide)⟩

/-- C8: for every source of `(u8,u8,u8)` triples (any state type, any
`next`/`size_hint` functions) and every fuel bound, the greyscale
adaptor yields exactly the source's elements mapped one-to-one through
the greyscale transform — in particular the output sequence has the
same length as the input sequence — and its size hint equals the
source's. -/
theorem greyscale_one_byte_per_triple {σ : Type}
    (it : IterSpec σ (Nat × Nat × Nat)) (s : σ) (fuel : Nat) :
    iterate (GreyscaleIter.next it) fuel s =
        (iterate it.next fuel s).map greyscalePixel ∧
      (iterate (GreyscaleIter.next it) fuel s).length =
        (iterate it.next fuel s).length ∧
      GreyscaleIter.size_hint it s = it.size_hint s := by
  have hmap : ∀ (fuel : Nat) (s : σ),
      iterate (GreyscaleIter.next it) fuel s =
        (iterate it.next fuel s).map greyscalePixel := by
    intro fuel
    induction fuel with
    | zero => intro s; rfl
    | succ fuel ih =>
      intro s
      cases h : it.next s with
      | none => simp [iterate, GreyscaleIter.next, h]
      | some p =>
        obtain ⟨a, s'⟩ := p
        simp [iterate, GreyscaleIter.next, h, ih]
  exact ⟨hmap fuel s, by rw [hmap fuel s]; simp, rfl⟩

/-- C9: the size hint of a freshly created pixel zip iterator is exact
and equals `total()`: both bounds are `total()`, for every image
satisfying the constructor invariant. -/
theorem rgb_iter_size_hint_exact (img : RgbImg) (hinv : RgbInvariant img) :
    RgbIter.size_hint img.iter = (img.total, some img.total) := by
  obtain ⟨hr, _, _⟩ := hinv
  show (img.r.length, some img.r.length) = _
  rw [hr]

/-- C9 witness: the size hint evaluated on the concrete image with
`red = [10,40]`, `green = [20,50]`, `blue = [30,60]`. -/
theorem rgb_iter_size_hint_exact_witness :
    RgbInvariant
        { r := [10, 40], g := [20, 50], b := [30, 60],
          height := 1, width := 2 } ∧
      RgbIter.size_hint (RgbImg.mk [10, 40] [20, 50] [30, 60] 1 2).iter =
        ((RgbImg.mk [10, 40] [20, 50] [30, 60] 1 2).total,
          some (RgbImg.mk [10, 40] [20, 50] [30, 60] 1 2).total) :=
  ⟨by decide,
    rgb_iter_size_hint_exact (RgbImg.mk [10, 40] [20, 50] [30, 60] 1 2)
      (by decide)⟩

/-- C10: for every `h`, `w` with `h * w = 0` (either one may be
nonzero), decoding the empty buffer succeeds and yields an image with
`height = h`, `width = w`, `total = 0`, all three channels empty, an
iterator that yields nothing, and an empty packed encoding. -/
theorem from_packed_buf_empty (h w : Nat) (hzero : h * w = 0) :
    (RgbImg.from_packed_buf [] h w).height = h ∧
      (RgbImg.from_packed_buf [] h w).width = w ∧
      (RgbImg.from_packed_buf [] h w).total = 0 ∧
      (RgbImg.from_packed_buf [] h w).r = [] ∧
      (RgbImg.from_packed_buf [] h w).g = [] ∧
      (RgbImg.from_packed_buf [] h w).b = [] ∧
      RgbIter.next (RgbImg.from_packed_buf [] h w).iter = none ∧
      (RgbImg.from_packed_buf [] h w).to_packed_buf = [] := by
  have hchan : RgbImg.setLen (h * w) ([] : List Nat) = [] := by
    simp [RgbImg.setLen, hzero]
  refine ⟨rfl, rfl, hzero, ?_, ?_, ?_, ?_, ?_⟩
  · show RgbImg.setLen (h * w) _ = []
    simpa [RgbImg.chunks3] using hchan
  · show RgbImg.setLen (h * w) _ = []
    simpa [RgbImg.chunks3] using hchan
  · show RgbImg.setLen (h * w) _ = []
    simpa [RgbImg.chunks3] using hchan
  · show RgbIter.next ⟨RgbImg.setLen (h * w) _, _, _⟩ = none
    simp [RgbImg.chunks3, hchan, RgbIter.next]
  · show (List.range ((RgbImg.from_packed_buf [] h w).total)).flatMap _ = []
    have : (RgbImg.from_packed_buf [] h w).total = 0 := hzero
    rw [this]
    rfl

/-- C10 witness: decoding the empty buffer with `height = 5`,
`width = 0`. -/
theorem from_packed_buf_empty_witness :
    5 * 0 = 0 ∧
      ((RgbImg.from_packed_buf [] 5 0).height = 5 ∧
        (RgbImg.from_packed_buf [] 5 0).width = 0 ∧
        (RgbImg.from_packed_buf [] 5 0).total = 0 ∧
        (RgbImg.from_packed_buf [] 5 0).r = [] ∧
        (RgbImg.from_packed_buf [] 5 0).g = [] ∧
        (RgbImg.from_packed_buf [] 5 0).b = [] ∧
        RgbIter.next (RgbImg.from_packed_buf [] 5 0).iter = none ∧
        (RgbImg.from_packed_buf [] 5 0).to_packed_buf = []) :=
  ⟨rfl, from_packed_buf_empty 5 0 rfl⟩

end Cvr
